import Mathlib

/-!
Shallow embedding of the ad-ess shaping codec.

The repository ships a Python demo (src/python/example.py) driving the
`pyadess.AdEss` codec.  The codec implementation itself is not part of the
source tree, so every component below the demo is modelled from the spec:
the distribution quantizer, the multiset-permutation rank/unrank engine
(composition enumerator), and the shaping codec with its batch wrapper.
Probabilities are modelled as exact rationals, bit vectors as lists over
{0,1}, amplitude sequences as lists of naturals, and all counters are
arbitrary-precision naturals, matching the spec's big-integer mandate.
-/

/-- Modelled from the spec: error kinds of the codec (section 7); the codec
implementation is missing from the source tree. -/
inductive AdEssError where
  | InvalidDistribution
  | DegenerateComposition
  | CapacityExceeded
  | InvalidComposition
  | LengthMismatch
  deriving DecidableEq, Repr

/-! ## Composition enumerator: multinomial counting and rank/unrank -/

/-- Modelled from the spec: PermutationCount is the multinomial coefficient
N! / prod (count_i !) of a composition, over arbitrary-precision integers
(the enumerator itself is missing from the source tree). -/
def permCount (c : List ℕ) : ℕ :=
  Nat.factorial c.sum / (c.map Nat.factorial).prod

/-- Product-of-binomials form of the multinomial coefficient, used for
reasoning; proved equal to `permCount` below. -/
def permCountAux : List ℕ → ℕ
  | [] => 1
  | a :: c => Nat.choose (a + c.sum) a * permCountAux c

/-- Decrement the count of symbol `i` in a remaining composition. -/
def decAt (c : List ℕ) (i : ℕ) : List ℕ :=
  c.set i (c.getD i 0 - 1)

/-- Modelled from the spec: the number of completions if symbol `i` is
placed next, i.e. the multinomial coefficient of the remaining composition
after decrementing that symbol's count (zero if the symbol is exhausted). -/
def weight (c : List ℕ) (i : ℕ) : ℕ :=
  if 0 < c.getD i 0 then permCount (decAt c i) else 0

/-- Completion counts of all candidate symbols in canonical order. -/
def weights (c : List ℕ) : List ℕ :=
  (List.range c.length).map (weight c)

/-- Choose the next symbol for `unrank`: scan the weight list in canonical
order, subtracting each weight smaller than the residual rank; returns the
chosen index together with the residual rank. -/
def select : ℕ → List ℕ → ℕ × ℕ
  | r, [] => (0, r)
  | r, w :: ws =>
    if r < w then (0, r)
    else
      let p := select (r - w) ws
      (p.1 + 1, p.2)

/-- Modelled from the spec: `unrank` builds the sequence position by
position; at each position it picks the first canonical symbol whose
completion count exceeds the residual rank, decrements that symbol in the
remaining composition and continues.  The fuel argument is the number of
positions still to fill (the sum of the remaining composition). -/
def unrankAux : ℕ → ℕ → List ℕ → List ℕ
  | 0, _, _ => []
  | n + 1, r, c =>
    let p := select r (weights c)
    p.1 :: unrankAux n p.2 (decAt c p.1)

/-- Unrank an integer index into the symbol-index sequence of that rank. -/
def unrank (r : ℕ) (c : List ℕ) : List ℕ :=
  unrankAux c.sum r c

/-- Modelled from the spec: `rank` walks the sequence, at each position
summing the completion counts of all canonical-order symbols preceding the
observed symbol, then decrements the observed symbol's remaining count. -/
def rankAux : List ℕ → List ℕ → ℕ
  | [], _ => 0
  | i :: rest, c => ((weights c).take i).sum + rankAux rest (decAt c i)

/-! ## Bit-vector conversions (MSB-first) -/

/-- Interpret a bit vector (elements in {0,1}) as an unsigned integer,
most-significant bit first. -/
def bitsToNat (b : List ℕ) : ℕ :=
  b.foldl (fun acc bit => 2 * acc + bit) 0

/-- Render an integer as a bit vector of the given width, most-significant
bit first, zero-padded on the left. -/
def natToBits : ℕ → ℕ → List ℕ
  | 0, _ => []
  | w + 1, n => natToBits w (n / 2) ++ [n % 2]

/-! ## Floor base-2 logarithm (structural, so it evaluates in the kernel) -/

/-- Fuelled floor base-2 logarithm. -/
def log2Aux : ℕ → ℕ → ℕ
  | 0, _ => 0
  | fuel + 1, n => if n ≤ 1 then 0 else log2Aux fuel (n / 2) + 1

/-- Floor of the base-2 logarithm (0 at 0). -/
def floorLog2 (n : ℕ) : ℕ := log2Aux n n

/-! ## Distribution quantizer -/

/-- Round a rational to the nearest integer, halves rounding up. -/
def roundHalfUp (q : ℚ) : ℤ := ⌊q + 1 / 2⌋

/-- Index of the largest entry of a rational list among a candidate index
list, earliest index winning ties. -/
def pickMaxQ (rem : List ℚ) : List ℕ → ℕ
  | [] => 0
  | i :: is =>
    if is = [] then i
    else if rem.getD (pickMaxQ rem is) 0 ≤ rem.getD i 0 then i
    else pickMaxQ rem is

/-- Index of the smallest entry of a rational list among a candidate index
list, earliest index winning ties. -/
def pickMinQ (rem : List ℚ) : List ℕ → ℕ
  | [] => 0
  | i :: is =>
    if is = [] then i
    else if rem.getD i 0 ≤ rem.getD (pickMinQ rem is) 0 then i
    else pickMinQ rem is

/-- Modelled from the spec: largest-remainder apportionment, upward
direction — repeatedly add one unit to the symbol whose fractional
remainder is largest (ties broken by ascending symbol index). -/
def fixUp : ℕ → List ℕ → List ℚ → List ℕ
  | 0, c, _ => c
  | k + 1, c, rem =>
    let i := pickMaxQ rem (List.range rem.length)
    fixUp k (c.set i (c.getD i 0 + 1)) (rem.set i (rem.getD i 0 - 1))

/-- Modelled from the spec: largest-remainder apportionment, downward
direction — repeatedly remove one unit from the symbol with the smallest
fractional remainder among symbols that still have a nonzero count. -/
def fixDown : ℕ → List ℕ → List ℚ → List ℕ
  | 0, c, _ => c
  | k + 1, c, rem =>
    let i := pickMinQ rem ((List.range c.length).filter
      (fun j => decide (0 < c.getD j 0)))
    fixDown k (c.set i (c.getD i 0 - 1)) (rem.set i (rem.getD i 0 + 1))

/-- Modelled from the spec: first quantizer stage — scale each probability
by the resolution factor and round to nearest integer. -/
def provisionalCounts (dist : List ℚ) (R : ℕ) : List ℕ :=
  dist.map (fun p => (roundHalfUp (p * R)).toNat)

/-- Modelled from the spec: second quantizer stage — rescale the
provisional counts proportionally so that they sum to the sequence
length. -/
def rescaledTargets (dist : List ℚ) (N R : ℕ) : List ℚ :=
  (provisionalCounts dist R).map
    (fun k : ℕ => (k : ℚ) * N / (((provisionalCounts dist R).sum : ℕ) : ℚ))

/-- Modelled from the spec: round the rescaled targets again. -/
def roundedCounts (dist : List ℚ) (N R : ℕ) : List ℕ :=
  (rescaledTargets dist N R).map (fun q => (roundHalfUp q).toNat)

/-- Fractional remainders left by the second rounding, used by the
largest-remainder apportionment. -/
def fracRemainders (dist : List ℚ) (N R : ℕ) : List ℚ :=
  (List.range (roundedCounts dist N R).length).map
    (fun i => (rescaledTargets dist N R).getD i 0
      - (((roundedCounts dist N R).getD i 0 : ℕ) : ℚ))

/-- Modelled from the spec: resolve the remaining rounding discrepancy by
largest-remainder apportionment so the counts sum exactly to the sequence
length. -/
def rawComposition (dist : List ℚ) (N R : ℕ) : List ℕ :=
  if (roundedCounts dist N R).sum ≤ N then
    fixUp (N - (roundedCounts dist N R).sum) (roundedCounts dist N R)
      (fracRemainders dist N R)
  else
    fixDown ((roundedCounts dist N R).sum - N) (roundedCounts dist N R)
      (fracRemainders dist N R)

/-- Modelled from the spec: the DistributionQuantizer (section 4.1), which
is missing from the source tree.  Fails with InvalidDistribution on a
negative entry or total mass away from 1, and with DegenerateComposition
when shaping is impossible. -/
def quantize (dist : List ℚ) (N : ℕ) (R : ℕ) : Except AdEssError (List ℕ) :=
  if (∃ p ∈ dist, p < 0) ∨ dist.sum ≠ 1 then
    Except.error AdEssError.InvalidDistribution
  else if (rawComposition dist N R).countP (fun k => decide (0 < k)) < 2 ∧
      1 < dist.countP (fun p => decide (0 < p)) ∧ 0 < N then
    Except.error AdEssError.DegenerateComposition
  else Except.ok (rawComposition dist N R)

/-! ## Shaping codec -/

/-- Modelled from the spec: a shaping codec holds the fixed alphabet and
the immutable composition derived at construction time. -/
structure AdEss where
  alphabet : List ℕ
  composition : List ℕ
  deriving DecidableEq, Repr

/-- Amplitude alphabet used by the demo: the first K odd magnitudes. -/
def mkAlphabet (K : ℕ) : List ℕ :=
  (List.range K).map (fun i => 2 * i + 1)

/-- Length of every amplitude sequence produced or consumed. -/
def AdEss.sequence_length (A : AdEss) : ℕ := A.composition.sum

/-- Modelled from the spec: the achieved data bit width
floor(log2(PermutationCount)). -/
def AdEss.num_data_bits (A : AdEss) : ℕ := floorLog2 (permCount A.composition)

/-- Modelled from the spec: construction derives the composition with the
quantizer and fails with CapacityExceeded when the achievable bit width is
below the requested one. -/
def AdEss.new_for_distribution_num_bits (target : ℕ) (N : ℕ) (dist : List ℚ)
    (R : ℕ) : Except AdEssError AdEss :=
  quantize dist N R >>= fun comp =>
    if floorLog2 (permCount comp) < target then
      Except.error AdEssError.CapacityExceeded
    else Except.ok ⟨mkAlphabet dist.length, comp⟩

/-- Modelled from the spec: mean per-symbol cost, the composition-weighted
mean of per-symbol energies (energy = squared amplitude). -/
def AdEss.average_energy (A : AdEss) : ℚ :=
  (((List.range A.alphabet.length).map
    (fun i => ((A.composition.getD i 0 : ℕ) : ℚ)
      * ((A.alphabet.getD i 0 : ℕ) : ℚ) ^ 2)).sum)
    / (A.sequence_length : ℚ)

/-- Modelled from the spec: the realized distribution count_i / N. -/
def AdEss.amplitude_distribution (A : AdEss) : List ℚ :=
  A.composition.map (fun k : ℕ => (k : ℚ) / (A.sequence_length : ℚ))

/-- Modelled from the spec: interpret the bit vector as an unsigned rank
(MSB-first) and unrank it into an amplitude sequence. -/
def AdEss.encode (A : AdEss) (b : List ℕ) : Except AdEssError (List ℕ) :=
  if b.length ≠ A.num_data_bits then Except.error AdEssError.LengthMismatch
  else Except.ok ((unrank (bitsToNat b) A.composition).map
    (fun i => A.alphabet.getD i 0))

/-- Modelled from the spec: check the length and the symbol counts of the
sequence against the fixed composition, rank it and render the rank as an
MSB-first bit vector of the achieved width. -/
def AdEss.decode (A : AdEss) (s : List ℕ) : Except AdEssError (List ℕ) :=
  if s.length ≠ A.sequence_length then Except.error AdEssError.LengthMismatch
  else if A.alphabet.map (fun a => s.count a) ≠ A.composition then
    Except.error AdEssError.InvalidComposition
  else Except.ok (natToBits A.num_data_bits
    (rankAux (s.map (fun a => A.alphabet.indexOf a)) A.composition))

/-- Modelled from the spec: stateless vectorization of `encode`. -/
def AdEss.multi_encode (A : AdEss) (rows : List (List ℕ)) :
    List (Except AdEssError (List ℕ)) :=
  rows.map A.encode

/-- Modelled from the spec: stateless vectorization of `decode`. -/
def AdEss.multi_decode (A : AdEss) (rows : List (List ℕ)) :
    List (Except AdEssError (List ℕ)) :=
  rows.map A.decode

/-- Amplitude sequence produced by a successful `encode` call. -/
def encodedSeq (A : AdEss) (b : List ℕ) : List ℕ :=
  (unrank (bitsToNat b) A.composition).map (fun i => A.alphabet.getD i 0)

/-- Target distribution of the shipped example (probabilities of the
amplitudes 1, 3, 5, 7). -/
def exDist : List ℚ := [1 / 10, 2 / 10, 3 / 10, 4 / 10]

/-- Codec the model constructs for the example distribution with
sequence length 10 and resolution factor 5. -/
def exCodec : AdEss := ⟨[1, 3, 5, 7], [2, 2, 3, 3]⟩

/-- Concrete 14-bit test vector (MSB-first rendering of 12345). -/
def exBits : List ℕ := [1, 1, 0, 0, 0, 0, 0, 0, 1, 1, 1, 0, 0, 1]

/-- Amplitude sequence that `exCodec` produces for `exBits`. -/
def exSeq : List ℕ := [5, 3, 3, 7, 5, 5, 7, 1, 1, 7]

/-! ## Lemmas about the multinomial coefficient -/

lemma permCountAux_pos (c : List ℕ) : 0 < permCountAux c := by
  induction c with
  | nil => simp [permCountAux]
  | cons a c ih =>
    exact Nat.mul_pos (Nat.choose_pos (Nat.le_add_right a c.sum)) ih

lemma permCount_spec (c : List ℕ) :
    (c.map Nat.factorial).prod * permCountAux c = Nat.factorial c.sum := by
  induction c with
  | nil => simp [permCountAux]
  | cons a c ih =>
    have h := Nat.choose_mul_factorial_mul_factorial (Nat.le_add_right a c.sum)
    rw [show a + c.sum - a = c.sum from by omega] at h
    simp only [List.map_cons, List.prod_cons, permCountAux, List.sum_cons]
    calc Nat.factorial a * (c.map Nat.factorial).prod *
          (Nat.choose (a + c.sum) a * permCountAux c)
        = Nat.choose (a + c.sum) a * Nat.factorial a *
            ((c.map Nat.factorial).prod * permCountAux c) := by ring
      _ = Nat.choose (a + c.sum) a * Nat.factorial a * Nat.factorial c.sum := by
            rw [ih]
      _ = Nat.factorial (a + c.sum) := h

lemma prod_factorial_pos (c : List ℕ) : 0 < (c.map Nat.factorial).prod := by
  apply List.prod_pos
  intro x hx
  obtain ⟨y, _, rfl⟩ := List.mem_map.mp hx
  exact Nat.factorial_pos y

lemma permCount_eq_aux (c : List ℕ) : permCount c = permCountAux c := by
  rw [permCount, ← permCount_spec c,
    Nat.mul_div_cancel_left _ (prod_factorial_pos c)]

lemma permCount_pos (c : List ℕ) : 0 < permCount c := by
  rw [permCount_eq_aux]; exact permCountAux_pos c

lemma permCount_cons (a : ℕ) (c : List ℕ) :
    permCount (a :: c) = Nat.choose (a + c.sum) a * permCount c := by
  rw [permCount_eq_aux, permCount_eq_aux, permCountAux]

lemma getD_eq_zero_of_sum_eq_zero (c : List ℕ) (h : c.sum = 0) (j : ℕ) :
    c.getD j 0 = 0 := by
  induction c generalizing j with
  | nil => simp
  | cons a c ih =>
    simp only [List.sum_cons] at h
    cases j with
    | zero => simp; omega
    | succ j => simpa using ih (by omega) j

lemma permCount_of_sum_eq_zero (c : List ℕ) (h : c.sum = 0) :
    permCount c = 1 := by
  rw [permCount_eq_aux]
  induction c with
  | nil => rfl
  | cons a c ih =>
    simp only [List.sum_cons] at h
    rw [permCountAux, ih (by omega), show a = 0 from by omega]
    simp

/-! ## Lemmas about decrementing a remaining composition -/

lemma decAt_cons_zero (a : ℕ) (c : List ℕ) : decAt (a :: c) 0 = (a - 1) :: c := rfl

lemma decAt_cons_succ (a : ℕ) (c : List ℕ) (i : ℕ) :
    decAt (a :: c) (i + 1) = a :: decAt c i := rfl

lemma length_decAt (c : List ℕ) (i : ℕ) : (decAt c i).length = c.length := by
  simp [decAt]

lemma getD_decAt_self (c : List ℕ) (i : ℕ) (h : i < c.length) :
    (decAt c i).getD i 0 = c.getD i 0 - 1 := by
  induction c generalizing i with
  | nil => simp at h
  | cons a c ih =>
    cases i with
    | zero => rfl
    | succ i =>
      rw [decAt_cons_succ, List.getD_cons_succ, List.getD_cons_succ]
      exact ih i (by simpa using h)

lemma getD_decAt_ne (c : List ℕ) (i j : ℕ) (h : i ≠ j) :
    (decAt c i).getD j 0 = c.getD j 0 := by
  induction c generalizing i j with
  | nil => simp [decAt]
  | cons a c ih =>
    cases i with
    | zero =>
      cases j with
      | zero => exact absurd rfl h
      | succ j => rw [decAt_cons_zero, List.getD_cons_succ, List.getD_cons_succ]
    | succ i =>
      cases j with
      | zero => rw [decAt_cons_succ, List.getD_cons_zero, List.getD_cons_zero]
      | succ j =>
        rw [decAt_cons_succ, List.getD_cons_succ, List.getD_cons_succ]
        exact ih i j (by omega)

lemma sum_decAt (c : List ℕ) (i : ℕ) (hi : i < c.length)
    (hp : 0 < c.getD i 0) : (decAt c i).sum + 1 = c.sum := by
  induction c generalizing i with
  | nil => simp at hi
  | cons a c ih =>
    cases i with
    | zero =>
      rw [decAt_cons_zero, List.sum_cons, List.sum_cons]
      simp only [List.getD_cons_zero] at hp
      omega
    | succ i =>
      rw [decAt_cons_succ, List.sum_cons, List.sum_cons]
      have := ih i (by simpa using hi) (by simpa using hp)
      omega

lemma sum_set_incr (c : List ℕ) (i : ℕ) (hi : i < c.length) :
    (c.set i (c.getD i 0 + 1)).sum = c.sum + 1 := by
  induction c generalizing i with
  | nil => simp at hi
  | cons a c ih =>
    cases i with
    | zero => simp [List.sum_cons]; omega
    | succ i =>
      simp only [List.getD_cons_succ, List.set_cons_succ, List.sum_cons]
      have := ih i (by simpa using hi)
      omega

/-! ## Lemmas about completion-count weights -/

lemma length_weights (c : List ℕ) : (weights c).length = c.length := by
  simp [weights]

lemma getD_map_range {α : Type} [Inhabited α] (f : ℕ → α) (n i : ℕ) (h : i < n) :
    ((List.range n).map f).getD i default = f i := by
  rw [List.getD_eq_getElem?_getD, List.getElem?_map, List.getElem?_range h]
  rfl

lemma getD_weights (c : List ℕ) (i : ℕ) (h : i < c.length) :
    (weights c).getD i 0 = weight c i := by
  have := getD_map_range (weight c) c.length i h
  simpa [weights] using this

lemma weight_cons_zero (a : ℕ) (c : List ℕ) :
    weight (a :: c) 0 = if 0 < a then permCount ((a - 1) :: c) else 0 := rfl

lemma weight_cons_succ (a : ℕ) (c : List ℕ) (i : ℕ) :
    weight (a :: c) (i + 1) =
      if 0 < c.getD i 0 then permCount (a :: decAt c i) else 0 := rfl

lemma weights_cons (a : ℕ) (c : List ℕ) :
    weights (a :: c) = weight (a :: c) 0 ::
      (List.range c.length).map (fun i => weight (a :: c) (i + 1)) := by
  rw [weights]
  simp only [List.length_cons, List.range_succ_eq_map, List.map_cons,
    List.map_map]
  rfl

lemma weights_sum (c : List ℕ) (h : 0 < c.sum) :
    (weights c).sum = permCount c := by
  induction c with
  | nil => simp at h
  | cons a c ih =>
    rw [weights_cons, List.sum_cons]
    by_cases hc : c.sum = 0
    · have tail0 : ∀ i ∈ List.range c.length,
          weight (a :: c) (i + 1) = (fun _ => (0 : ℕ)) i := by
        intro i _
        rw [weight_cons_succ, getD_eq_zero_of_sum_eq_zero c hc i]
        simp
      rw [List.map_congr_left tail0]
      have ha : 0 < a := by
        simp only [List.sum_cons] at h; omega
      rw [weight_cons_zero, if_pos ha]
      rw [permCount_cons, permCount_cons, hc]
      simp [Nat.choose_self]
    · have hc2 : 0 < c.sum := Nat.pos_of_ne_zero hc
      have key : ∀ i ∈ List.range c.length,
          weight (a :: c) (i + 1) =
            (fun i => Nat.choose (a + c.sum - 1) a * weight c i) i := by
        intro i hi
        simp only [weight, List.getD_cons_succ, decAt_cons_succ]
        by_cases hp : 0 < c.getD i 0
        · rw [if_pos hp, if_pos hp, permCount_cons]
          have hd : (decAt c i).sum = c.sum - 1 := by
            have := sum_decAt c i (List.mem_range.mp hi) hp
            omega
          rw [hd, show a + (c.sum - 1) = a + c.sum - 1 from by omega]
        · rw [if_neg hp, if_neg hp, mul_zero]
      rw [List.map_congr_left key, List.sum_map_mul_left]
      have hws : ((List.range c.length).map (weight c)).sum = permCount c :=
        ih hc2
      rw [show ((List.range c.length).map fun i => weight c i) =
        (List.range c.length).map (weight c) from rfl, hws]
      cases a with
      | zero =>
        rw [weight_cons_zero, permCount_cons]
        norm_num [Nat.choose_zero_right]
      | succ a =>
        rw [weight_cons_zero, if_pos (Nat.succ_pos a), Nat.succ_sub_one,
          permCount_cons, permCount_cons]
        rw [show a + 1 + c.sum - 1 = a + c.sum from by omega,
          show a + 1 + c.sum = (a + c.sum) + 1 from by omega]
        rw [show (a + c.sum) + 1 = (a + c.sum) + 1 from rfl]
        rw [Nat.choose_succ_succ (a + c.sum) a]
        ring

/-! ## Lemmas about symbol selection -/

lemma select_spec : ∀ (ws : List ℕ) (r : ℕ), r < ws.sum →
    (select r ws).1 < ws.length ∧
    (select r ws).2 < ws.getD (select r ws).1 0 ∧
    (ws.take (select r ws).1).sum + (select r ws).2 = r := by
  intro ws
  induction ws with
  | nil => intro r h; simp at h
  | cons w ws ih =>
    intro r h
    by_cases hr : r < w
    · refine ⟨?_, ?_, ?_⟩ <;> simp [select, hr]
    · rw [List.sum_cons] at h
      obtain ⟨h1, h2, h3⟩ := ih (r - w) (by omega)
      refine ⟨?_, ?_, ?_⟩
      · simp only [select, if_neg hr, List.length_cons]
        omega
      · simp only [select, if_neg hr, List.getD_cons_succ]
        exact h2
      · simp only [select, if_neg hr, List.take_succ_cons, List.sum_cons]
        omega

/-! ## Correctness of unrank and rank -/

lemma unrankAux_cons (n r : ℕ) (c : List ℕ) :
    unrankAux (n + 1) r c = (select r (weights c)).1 ::
      unrankAux n (select r (weights c)).2 (decAt c (select r (weights c)).1) :=
  rfl

lemma unrankAux_good : ∀ (n : ℕ) (c : List ℕ) (r : ℕ), c.sum = n →
    r < permCount c →
    (unrankAux n r c).length = n ∧
    (∀ x ∈ unrankAux n r c, x < c.length) ∧
    (∀ j, (unrankAux n r c).count j = c.getD j 0) := by
  intro n
  induction n with
  | zero =>
    intro c r hs _
    refine ⟨rfl, by simp [unrankAux], ?_⟩
    intro j
    rw [show unrankAux 0 r c = [] from rfl, List.count_nil,
      getD_eq_zero_of_sum_eq_zero c hs j]
  | succ n ih =>
    intro c r hs hr
    have hpos : 0 < c.sum := by omega
    have hrw : r < (weights c).sum := by rw [weights_sum c hpos]; exact hr
    obtain ⟨h1, h2, h3⟩ := select_spec (weights c) r hrw
    have hilen : (select r (weights c)).1 < c.length := by
      rw [← length_weights c]; exact h1
    have hwi : (select r (weights c)).2 < weight c (select r (weights c)).1 := by
      rw [← getD_weights c (select r (weights c)).1 hilen]; exact h2
    have hci : 0 < c.getD (select r (weights c)).1 0 ∧
        (select r (weights c)).2 < permCount (decAt c (select r (weights c)).1) := by
      rw [weight] at hwi
      by_cases hp : 0 < c.getD (select r (weights c)).1 0
      · exact ⟨hp, by rwa [if_pos hp] at hwi⟩
      · rw [if_neg hp] at hwi; omega
    have hdsum : (decAt c (select r (weights c)).1).sum = n := by
      have := sum_decAt c (select r (weights c)).1 hilen hci.1
      omega
    obtain ⟨g1, g2, g3⟩ :=
      ih (decAt c (select r (weights c)).1) (select r (weights c)).2 hdsum hci.2
    rw [unrankAux_cons]
    refine ⟨?_, ?_, ?_⟩
    · simp [g1]
    · intro x hx
      rcases List.mem_cons.mp hx with hx | hx
      · rw [hx]; exact hilen
      · have := g2 x hx
        rwa [length_decAt] at this
    · intro j
      rw [List.count_cons, g3 j]
      by_cases hj : (select r (weights c)).1 = j
      · subst hj
        rw [getD_decAt_self c _ hilen, if_pos (beq_self_eq_true _)]
        have := hci.1
        omega
      · rw [getD_decAt_ne c _ j hj, if_neg (by simp [hj])]
        omega

lemma rank_unrank : ∀ (n : ℕ) (c : List ℕ) (r : ℕ), c.sum = n →
    r < permCount c → rankAux (unrankAux n r c) c = r := by
  intro n
  induction n with
  | zero =>
    intro c r hs hr
    rw [permCount_of_sum_eq_zero c hs] at hr
    interval_cases r
    rfl
  | succ n ih =>
    intro c r hs hr
    have hpos : 0 < c.sum := by omega
    have hrw : r < (weights c).sum := by rw [weights_sum c hpos]; exact hr
    obtain ⟨h1, h2, h3⟩ := select_spec (weights c) r hrw
    have hilen : (select r (weights c)).1 < c.length := by
      rw [← length_weights c]; exact h1
    have hwi : (select r (weights c)).2 < weight c (select r (weights c)).1 := by
      rw [← getD_weights c (select r (weights c)).1 hilen]; exact h2
    have hci : 0 < c.getD (select r (weights c)).1 0 ∧
        (select r (weights c)).2 < permCount (decAt c (select r (weights c)).1) := by
      rw [weight] at hwi
      by_cases hp : 0 < c.getD (select r (weights c)).1 0
      · exact ⟨hp, by rwa [if_pos hp] at hwi⟩
      · rw [if_neg hp] at hwi; omega
    have hdsum : (decAt c (select r (weights c)).1).sum = n := by
      have := sum_decAt c (select r (weights c)).1 hilen hci.1
      omega
    rw [unrankAux_cons, rankAux,
      ih (decAt c (select r (weights c)).1) (select r (weights c)).2 hdsum hci.2]
    exact h3

/-! ## Bit-vector lemmas -/

lemma length_natToBits (w : ℕ) : ∀ n, (natToBits w n).length = w := by
  induction w with
  | zero => intro n; rfl
  | succ w ih => intro n; simp [natToBits, ih]

lemma mem_natToBits (w : ℕ) : ∀ n, ∀ x ∈ natToBits w n, x ≤ 1 := by
  induction w with
  | zero => intro n x hx; simp [natToBits] at hx
  | succ w ih =>
    intro n x hx
    rw [natToBits] at hx
    rcases List.mem_append.mp hx with hx | hx
    · exact ih (n / 2) x hx
    · have : x = n % 2 := by simpa using hx
      omega

lemma bitsToNat_concat (l : List ℕ) (x : ℕ) :
    bitsToNat (l ++ [x]) = 2 * bitsToNat l + x := by
  simp [bitsToNat, List.foldl_append]

lemma bitsToNat_natToBits (w : ℕ) : ∀ n, n < 2 ^ w →
    bitsToNat (natToBits w n) = n := by
  induction w with
  | zero =>
    intro n h
    simp only [pow_zero] at h
    interval_cases n
    rfl
  | succ w ih =>
    intro n h
    rw [natToBits, bitsToNat_concat, ih (n / 2) ?_]
    · omega
    · rw [pow_succ] at h
      omega

lemma natToBits_bitsToNat (b : List ℕ) (hb : ∀ x ∈ b, x ≤ 1) :
    natToBits b.length (bitsToNat b) = b := by
  induction b using List.reverseRecOn with
  | nil => rfl
  | append_singleton l y ih =>
    have hy : y ≤ 1 := hb y (by simp)
    have hl : ∀ x ∈ l, x ≤ 1 := fun x hx => hb x (by simp [hx])
    rw [bitsToNat_concat]
    rw [show (l ++ [y]).length = l.length + 1 from by simp]
    rw [natToBits]
    rw [show (2 * bitsToNat l + y) / 2 = bitsToNat l from by omega]
    rw [show (2 * bitsToNat l + y) % 2 = y from by omega]
    rw [ih hl]

lemma bitsToNat_lt (b : List ℕ) (hb : ∀ x ∈ b, x ≤ 1) :
    bitsToNat b < 2 ^ b.length := by
  induction b using List.reverseRecOn with
  | nil => simp [bitsToNat]
  | append_singleton l y ih =>
    have hy : y ≤ 1 := hb y (by simp)
    have hl : ∀ x ∈ l, x ≤ 1 := fun x hx => hb x (by simp [hx])
    have := ih hl
    rw [bitsToNat_concat, show (l ++ [y]).length = l.length + 1 from by simp,
      pow_succ]
    omega

/-! ## Floor log2 lemmas -/

lemma log2Aux_spec : ∀ (fuel n : ℕ), 1 ≤ n → n ≤ fuel →
    2 ^ log2Aux fuel n ≤ n ∧ n < 2 ^ (log2Aux fuel n + 1) := by
  intro fuel
  induction fuel with
  | zero => intro n h1 h2; omega
  | succ fuel ih =>
    intro n h1 h2
    by_cases hn : n ≤ 1
    · have : n = 1 := by omega
      subst this
      simp [log2Aux]
    · rw [log2Aux, if_neg hn]
      obtain ⟨a1, a2⟩ := ih (n / 2) (by omega) (by omega)
      rw [pow_succ] at a2
      constructor
      · rw [pow_succ]
        omega
      · rw [pow_succ, pow_succ]
        omega

lemma floorLog2_spec (n : ℕ) (h : 1 ≤ n) :
    2 ^ floorLog2 n ≤ n ∧ n < 2 ^ (floorLog2 n + 1) :=
  log2Aux_spec n n h le_rfl

/-! ## Lemmas about the apportionment loop -/

lemma pickMaxQ_mem (rem : List ℚ) : ∀ (l : List ℕ), l ≠ [] →
    pickMaxQ rem l ∈ l := by
  intro l
  induction l with
  | nil => intro h; exact absurd rfl h
  | cons i is ih =>
    intro _
    by_cases his : is = []
    · simp [pickMaxQ, his]
    · rw [pickMaxQ, if_neg his]
      by_cases hle : rem.getD (pickMaxQ rem is) 0 ≤ rem.getD i 0
      · rw [if_pos hle]; exact List.mem_cons_self i is
      · rw [if_neg hle]; exact List.mem_cons_of_mem i (ih his)

lemma pickMinQ_mem (rem : List ℚ) : ∀ (l : List ℕ), l ≠ [] →
    pickMinQ rem l ∈ l := by
  intro l
  induction l with
  | nil => intro h; exact absurd rfl h
  | cons i is ih =>
    intro _
    by_cases his : is = []
    · simp [pickMinQ, his]
    · rw [pickMinQ, if_neg his]
      by_cases hle : rem.getD i 0 ≤ rem.getD (pickMinQ rem is) 0
      · rw [if_pos hle]; exact List.mem_cons_self i is
      · rw [if_neg hle]; exact List.mem_cons_of_mem i (ih his)

lemma exists_pos_getD (c : List ℕ) (h : 0 < c.sum) :
    ∃ i, i < c.length ∧ 0 < c.getD i 0 := by
  induction c with
  | nil => simp at h
  | cons a c ih =>
    by_cases ha : 0 < a
    · exact ⟨0, by simp, by simpa using ha⟩
    · rw [List.sum_cons] at h
      obtain ⟨i, hi, hp⟩ := ih (by omega)
      exact ⟨i + 1, by simp [hi], by simpa using hp⟩

lemma fixUp_length (k : ℕ) (c : List ℕ) (rem : List ℚ) :
    (fixUp k c rem).length = c.length := by
  induction k generalizing c rem with
  | zero => rfl
  | succ k ih => simp only [fixUp]; rw [ih, List.length_set]

lemma fixDown_length (k : ℕ) (c : List ℕ) (rem : List ℚ) :
    (fixDown k c rem).length = c.length := by
  induction k generalizing c rem with
  | zero => rfl
  | succ k ih => simp only [fixDown]; rw [ih, List.length_set]

lemma fixUp_sum (k : ℕ) (c : List ℕ) (rem : List ℚ)
    (h1 : rem.length = c.length) (h2 : 0 < c.length) :
    (fixUp k c rem).sum = c.sum + k := by
  induction k generalizing c rem with
  | zero => rfl
  | succ k ih =>
    have hne : List.range rem.length ≠ [] := by
      simp only [ne_eq, List.range_eq_nil]
      omega
    have hi := pickMaxQ_mem rem (List.range rem.length) hne
    have hlt : pickMaxQ rem (List.range rem.length) < c.length := by
      rw [← h1]; exact List.mem_range.mp hi
    simp only [fixUp]
    have step := ih
      (c.set (pickMaxQ rem (List.range rem.length))
        (c.getD (pickMaxQ rem (List.range rem.length)) 0 + 1))
      (rem.set (pickMaxQ rem (List.range rem.length))
        (rem.getD (pickMaxQ rem (List.range rem.length)) 0 - 1))
      (by simp [h1]) (by simpa using h2)
    rw [step, sum_set_incr c _ hlt]
    omega

lemma fixDown_sum (k : ℕ) (c : List ℕ) (rem : List ℚ) (M : ℕ)
    (h : c.sum = M + k) : (fixDown k c rem).sum = M := by
  induction k generalizing c rem with
  | zero => rw [show fixDown 0 c rem = c from rfl]; omega
  | succ k ih =>
    have hpos : 0 < c.sum := by omega
    obtain ⟨i0, hi0, hp0⟩ := exists_pos_getD c hpos
    have hmem : i0 ∈ (List.range c.length).filter
        (fun j => decide (0 < c.getD j 0)) :=
      List.mem_filter.mpr ⟨List.mem_range.mpr hi0, by simpa using hp0⟩
    have hne := List.ne_nil_of_mem hmem
    have hpick := pickMinQ_mem rem _ hne
    have hfilter := List.mem_filter.mp hpick
    have hlt : pickMinQ rem ((List.range c.length).filter
        (fun j => decide (0 < c.getD j 0))) < c.length :=
      List.mem_range.mp hfilter.1
    have hpos2 : 0 < c.getD (pickMinQ rem ((List.range c.length).filter
        (fun j => decide (0 < c.getD j 0)))) 0 := by
      simpa using hfilter.2
    have hdec := sum_decAt c _ hlt hpos2
    simp only [fixDown]
    have step := ih
      (c.set (pickMinQ rem ((List.range c.length).filter
          (fun j => decide (0 < c.getD j 0))))
        (c.getD (pickMinQ rem ((List.range c.length).filter
          (fun j => decide (0 < c.getD j 0)))) 0 - 1))
      (rem.set (pickMinQ rem ((List.range c.length).filter
          (fun j => decide (0 < c.getD j 0))))
        (rem.getD (pickMinQ rem ((List.range c.length).filter
          (fun j => decide (0 < c.getD j 0)))) 0 + 1))
      (by
        rw [show (c.set (pickMinQ rem ((List.range c.length).filter
          (fun j => decide (0 < c.getD j 0))))
          (c.getD (pickMinQ rem ((List.range c.length).filter
            (fun j => decide (0 < c.getD j 0)))) 0 - 1)) =
          decAt c (pickMinQ rem ((List.range c.length).filter
            (fun j => decide (0 < c.getD j 0)))) from rfl]
        rw [show (decAt c (pickMinQ rem ((List.range c.length).filter
          (fun j => decide (0 < c.getD j 0))))).sum = c.sum - 1 from by omega]
        omega)
    exact step

/-! ## Lengths and sums produced by the quantizer -/

lemma length_provisionalCounts (dist : List ℚ) (R : ℕ) :
    (provisionalCounts dist R).length = dist.length := by
  simp [provisionalCounts]

lemma length_roundedCounts (dist : List ℚ) (N R : ℕ) :
    (roundedCounts dist N R).length = dist.length := by
  rw [roundedCounts, List.length_map, rescaledTargets, List.length_map,
    provisionalCounts, List.length_map]

lemma length_fracRemainders (dist : List ℚ) (N R : ℕ) :
    (fracRemainders dist N R).length = (roundedCounts dist N R).length := by
  simp [fracRemainders]

lemma length_rawComposition (dist : List ℚ) (N R : ℕ) :
    (rawComposition dist N R).length = dist.length := by
  rw [rawComposition]
  split_ifs with hle
  · rw [fixUp_length, length_roundedCounts]
  · rw [fixDown_length, length_roundedCounts]

lemma sum_rawComposition (dist : List ℚ) (N R : ℕ) (h : dist ≠ []) :
    (rawComposition dist N R).sum = N := by
  have hlen : 0 < (roundedCounts dist N R).length := by
    rw [length_roundedCounts]
    cases dist with
    | nil => exact absurd rfl h
    | cons p ps => simp
  rw [rawComposition]
  split_ifs with hle
  · rw [fixUp_sum _ _ _ (length_fracRemainders dist N R) hlen]
    omega
  · rw [fixDown_sum _ _ _ N (by omega)]

lemma quantize_ok {dist : List ℚ} {N R : ℕ} {comp : List ℕ}
    (h : quantize dist N R = Except.ok comp) :
    comp = rawComposition dist N R ∧ dist.sum = 1 := by
  by_cases h1 : (∃ p ∈ dist, p < 0) ∨ dist.sum ≠ 1
  · rw [quantize, if_pos h1] at h
    exact absurd h (by simp)
  · by_cases h2 : (rawComposition dist N R).countP (fun k => decide (0 < k)) < 2 ∧
        1 < dist.countP (fun p => decide (0 < p)) ∧ 0 < N
    · rw [quantize, if_neg h1, if_pos h2] at h
      exact absurd h (by simp)
    · rw [quantize, if_neg h1, if_neg h2] at h
      push_neg at h1
      exact ⟨(Except.ok.inj h).symm, h1.2⟩

lemma quantize_sum_length {dist : List ℚ} {N R : ℕ} {comp : List ℕ}
    (h : quantize dist N R = Except.ok comp) :
    comp.sum = N ∧ comp.length = dist.length := by
  obtain ⟨hc, hs⟩ := quantize_ok h
  have hne : dist ≠ [] := by
    intro hnil
    rw [hnil] at hs
    simp at hs
  rw [hc]
  exact ⟨sum_rawComposition dist N R hne, length_rawComposition dist N R⟩

/-! ## Alphabet and index lemmas -/

lemma mkAlphabet_length (K : ℕ) : (mkAlphabet K).length = K := by
  simp [mkAlphabet]

lemma mkAlphabet_nodup (K : ℕ) : (mkAlphabet K).Nodup := by
  refine List.Nodup.map ?_ (List.nodup_range K)
  intro a b hab
  simp only [] at hab
  omega

lemma indexOf_getD : ∀ (l : List ℕ), l.Nodup → ∀ i, i < l.length →
    l.indexOf (l.getD i 0) = i := by
  intro l
  induction l with
  | nil => intro _ i hi; simp at hi
  | cons a t ih =>
    intro hl i hi
    rcases List.nodup_cons.mp hl with ⟨ha, ht⟩
    cases i with
    | zero => simp [List.indexOf_cons_self]
    | succ i =>
      have hit : i < t.length := by simpa using hi
      have hmem : t.getD i 0 ∈ t := by
        rw [List.getD_eq_getElem t 0 hit]
        exact List.getElem_mem hit
      have hne : a ≠ t.getD i 0 := fun hh => ha (hh ▸ hmem)
      rw [List.getD_cons_succ, List.indexOf_cons_ne t hne, ih ht i hit]

lemma getD_inj (l : List ℕ) (hl : l.Nodup) (i j : ℕ) (hi : i < l.length)
    (hj : j < l.length) (h : l.getD i 0 = l.getD j 0) : i = j := by
  rw [← indexOf_getD l hl i hi, ← indexOf_getD l hl j hj, h]

lemma count_map_getD (alph : List ℕ) (hn : alph.Nodup) (i : ℕ)
    (hi : i < alph.length) : ∀ (idxs : List ℕ), (∀ x ∈ idxs, x < alph.length) →
    (idxs.map (fun x => alph.getD x 0)).count (alph.getD i 0) = idxs.count i := by
  intro idxs
  induction idxs with
  | nil => intro _; simp
  | cons x rest ih =>
    intro hb
    rw [List.map_cons, List.count_cons, List.count_cons,
      ih (fun y hy => hb y (List.mem_cons_of_mem x hy))]
    congr 1
    by_cases hxi : x = i
    · subst hxi; simp
    · have hgd : alph.getD x 0 ≠ alph.getD i 0 := fun hh =>
        hxi (getD_inj alph hn x i (hb x (List.mem_cons_self x rest)) hi hh)
      have hpr1 : ¬(alph.getD x 0 == alph.getD i 0) = true := by
        simp only [beq_iff_eq]
        exact hgd
      have hpr2 : ¬(x == i) = true := by
        simp only [beq_iff_eq]
        exact hxi
      rw [if_neg hpr1, if_neg hpr2]

lemma map_indexOf_map_getD (alph : List ℕ) (hn : alph.Nodup) (idxs : List ℕ)
    (hb : ∀ x ∈ idxs, x < alph.length) :
    (idxs.map (fun x => alph.getD x 0)).map (fun a => alph.indexOf a) = idxs := by
  rw [List.map_map]
  have h : ∀ x ∈ idxs,
      ((fun a => alph.indexOf a) ∘ (fun x => alph.getD x 0)) x = id x := by
    intro x hx
    exact indexOf_getD alph hn x (hb x hx)
  rw [List.map_congr_left h, List.map_id]

/-! ## Constructor inversion -/

lemma construct_ok {target N R : ℕ} {dist : List ℚ} {A : AdEss}
    (h : AdEss.new_for_distribution_num_bits target N dist R = Except.ok A) :
    quantize dist N R = Except.ok A.composition ∧
    A.alphabet = mkAlphabet dist.length ∧ target ≤ A.num_data_bits := by
  rw [AdEss.new_for_distribution_num_bits] at h
  cases hq : quantize dist N R with
  | error e =>
    rw [hq] at h
    exact absurd h (by simp [Bind.bind, Except.bind])
  | ok comp =>
    rw [hq] at h
    simp only [Bind.bind, Except.bind] at h
    by_cases hlt : floorLog2 (permCount comp) < target
    · rw [if_pos hlt] at h
      exact absurd h (by simp)
    · rw [if_neg hlt] at h
      have hA : A = ⟨mkAlphabet dist.length, comp⟩ := (Except.ok.inj h).symm
      subst hA
      refine ⟨rfl, rfl, ?_⟩
      simpa [AdEss.num_data_bits] using Nat.le_of_not_lt hlt

lemma construct_wf {target N R : ℕ} {dist : List ℚ} {A : AdEss}
    (h : AdEss.new_for_distribution_num_bits target N dist R = Except.ok A) :
    A.alphabet.Nodup ∧ A.alphabet.length = A.composition.length ∧
    A.composition.sum = N := by
  obtain ⟨hq, halph, _⟩ := construct_ok h
  obtain ⟨hsum, hcomplen⟩ := quantize_sum_length hq
  refine ⟨?_, ?_, hsum⟩
  · rw [halph]; exact mkAlphabet_nodup dist.length
  · rw [halph, mkAlphabet_length, hcomplen]

/-! ## Encode and decode correctness -/

lemma encode_spec (A : AdEss) (hn : A.alphabet.Nodup)
    (hlen : A.alphabet.length = A.composition.length)
    (b : List ℕ) (hb : b.length = A.num_data_bits) (hbits : ∀ x ∈ b, x ≤ 1) :
    A.encode b = Except.ok (encodedSeq A b) ∧
    (encodedSeq A b).length = A.composition.sum ∧
    (∀ x ∈ encodedSeq A b, x ∈ A.alphabet) ∧
    A.alphabet.map (fun a => (encodedSeq A b).count a) = A.composition := by
  have hr : bitsToNat b < permCount A.composition := by
    have h1 := bitsToNat_lt b hbits
    rw [hb] at h1
    have h2 : 2 ^ A.num_data_bits ≤ permCount A.composition :=
      (floorLog2_spec _ (permCount_pos _)).1
    omega
  obtain ⟨g1, g2, g3⟩ :=
    unrankAux_good A.composition.sum A.composition (bitsToNat b) rfl hr
  refine ⟨?_, ?_, ?_, ?_⟩
  · rw [AdEss.encode, if_neg (by simp [hb])]
    rfl
  · rw [encodedSeq, List.length_map]
    exact g1
  · intro x hx
    rw [encodedSeq] at hx
    obtain ⟨i0, hi0, rfl⟩ := List.mem_map.mp hx
    have hilt : i0 < A.alphabet.length := by
      rw [hlen]; exact g2 i0 hi0
    rw [List.getD_eq_getElem A.alphabet 0 hilt]
    exact List.getElem_mem hilt
  · apply List.ext_getElem
    · simp [hlen]
    · intro n h1 h2
      have hna : n < A.alphabet.length := by simpa using h1
      have hnc : n < A.composition.length := by simpa using h2
      rw [List.getElem_map]
      rw [show A.alphabet[n] = A.alphabet.getD n 0 from
        (List.getD_eq_getElem A.alphabet 0 hna).symm]
      rw [encodedSeq, count_map_getD A.alphabet hn n hna _
        (fun x hx => by rw [hlen]; exact g2 x hx)]
      rw [show unrank (bitsToNat b) A.composition =
        unrankAux A.composition.sum (bitsToNat b) A.composition from rfl]
      rw [g3 n, List.getD_eq_getElem A.composition 0 hnc]

lemma decode_encodedSeq (A : AdEss) (hn : A.alphabet.Nodup)
    (hlen : A.alphabet.length = A.composition.length)
    (b : List ℕ) (hb : b.length = A.num_data_bits) (hbits : ∀ x ∈ b, x ≤ 1) :
    A.decode (encodedSeq A b) = Except.ok b := by
  obtain ⟨_, hslen, _, hcounts⟩ := encode_spec A hn hlen b hb hbits
  have hr : bitsToNat b < permCount A.composition := by
    have h1 := bitsToNat_lt b hbits
    rw [hb] at h1
    have h2 : 2 ^ A.num_data_bits ≤ permCount A.composition :=
      (floorLog2_spec _ (permCount_pos _)).1
    omega
  obtain ⟨g1, g2, g3⟩ :=
    unrankAux_good A.composition.sum A.composition (bitsToNat b) rfl hr
  rw [AdEss.decode, if_neg (by rw [hslen]; exact fun hh => hh rfl)]
  rw [if_neg (fun hh => hh hcounts)]
  rw [encodedSeq, map_indexOf_map_getD A.alphabet hn _
    (fun x hx => by rw [hlen]; exact g2 x hx)]
  rw [show unrank (bitsToNat b) A.composition =
    unrankAux A.composition.sum (bitsToNat b) A.composition from rfl]
  rw [rank_unrank A.composition.sum A.composition (bitsToNat b) rfl hr]
  rw [← hb, natToBits_bitsToNat b hbits]

lemma encode_decode_roundtrip (A : AdEss) (hn : A.alphabet.Nodup)
    (hlen : A.alphabet.length = A.composition.length)
    (b : List ℕ) (hb : b.length = A.num_data_bits) (hbits : ∀ x ∈ b, x ≤ 1) :
    A.encode b >>= A.decode = Except.ok b := by
  rw [(encode_spec A hn hlen b hb hbits).1]
  show Except.bind (Except.ok (encodedSeq A b)) A.decode = Except.ok b
  rw [show Except.bind (Except.ok (encodedSeq A b)) A.decode =
    A.decode (encodedSeq A b) from rfl]
  exact decode_encodedSeq A hn hlen b hb hbits

/-! ## Sums over sequences with prescribed symbol counts -/

lemma sum_range_ite_count (a : ℕ) (f : ℕ → ℕ) : ∀ (K : ℕ),
    ((List.range K).map (fun j => if a = j then f j else 0)).sum =
      if a < K then f a else 0 := by
  intro K
  induction K with
  | zero => simp
  | succ K ih =>
    rw [List.range_succ, List.map_append, List.sum_append, ih]
    have hsingle : (List.map (fun j => if a = j then f j else 0) [K]).sum =
        if a = K then f K else 0 := by
      simp only [List.map_cons, List.map_nil, List.sum_cons, List.sum_nil,
        add_zero]
    rw [hsingle]
    by_cases h1 : a < K
    · rw [if_pos h1, if_neg (show ¬a = K from by omega),
        if_pos (show a < K + 1 from by omega)]
      omega
    · by_cases h2 : a = K
      · subst h2
        rw [if_neg h1, if_pos rfl, if_pos (by omega)]
        omega
      · rw [if_neg h1, if_neg h2, if_neg (by omega)]

lemma count_canon (c : List ℕ) (a : ℕ) :
    ((List.range c.length).flatMap
      (fun j => List.replicate (c.getD j 0) j)).count a = c.getD a 0 := by
  rw [List.count_flatMap]
  have h : ∀ j ∈ List.range c.length,
      (List.count a ∘ fun j => List.replicate (c.getD j 0) j) j =
        (fun j => if a = j then c.getD j 0 else 0) j := by
    intro j _
    simp only [Function.comp_apply, List.count_replicate]
    by_cases haj : a = j
    · subst haj
      rw [if_pos (beq_self_eq_true a), if_pos rfl]
    · rw [if_neg (by simp only [beq_iff_eq]; omega), if_neg haj]
  rw [List.map_congr_left h, sum_range_ite_count]
  by_cases ha : a < c.length
  · rw [if_pos ha]
  · rw [if_neg ha, List.getD_eq_default]
    omega

lemma perm_canon (idxs c : List ℕ) (hc : ∀ j, idxs.count j = c.getD j 0) :
    List.Perm idxs ((List.range c.length).flatMap
      (fun j => List.replicate (c.getD j 0) j)) := by
  apply List.perm_iff_count.mpr
  intro a
  rw [hc a, count_canon]

lemma sum_map_flatMap (l : List ℕ) (f : ℕ → List ℕ) (g : ℕ → ℚ) :
    ((l.flatMap f).map g).sum = (l.map (fun a => ((f a).map g).sum)).sum := by
  induction l with
  | nil => simp
  | cons a t ih => simp [List.flatMap_cons, List.map_append, List.sum_append, ih]

lemma sum_map_eq_counts (g : ℕ → ℚ) (idxs c : List ℕ)
    (hc : ∀ j, idxs.count j = c.getD j 0) :
    (idxs.map g).sum =
      ((List.range c.length).map
        (fun j => ((c.getD j 0 : ℕ) : ℚ) * g j)).sum := by
  have hperm := perm_canon idxs c hc
  rw [(hperm.map g).sum_eq, sum_map_flatMap]
  apply congrArg
  apply List.map_congr_left
  intro j _
  rw [List.map_replicate, List.sum_replicate, nsmul_eq_mul]

lemma sum_map_div (l : List ℚ) (d : ℚ) :
    (l.map (fun x => x / d)).sum = l.sum / d := by
  induction l with
  | nil => simp
  | cons a t ih => simp [ih, add_div]

lemma sum_map_cast (l : List ℕ) :
    (l.map (fun k : ℕ => (k : ℚ))).sum = ((l.sum : ℕ) : ℚ) := by
  induction l with
  | nil => simp
  | cons a t ih =>
    rw [List.map_cons, List.sum_cons, ih, List.sum_cons]
    push_cast
    ring

/-! ## Concrete evaluation of the example scenario -/

lemma roundHalfUp_eval (q : ℚ) (z : ℤ) (h1 : (z : ℚ) ≤ q + 1 / 2)
    (h2 : q + 1 / 2 < (z : ℚ) + 1) : roundHalfUp q = z := by
  rw [roundHalfUp]
  exact Int.floor_eq_iff.mpr ⟨h1, h2⟩

lemma provisional_ex : provisionalCounts exDist 5 = [1, 1, 2, 2] := by
  rw [provisionalCounts, exDist]
  simp only [List.map_cons, List.map_nil]
  rw [roundHalfUp_eval (1 / 10 * ((5 : ℕ) : ℚ)) 1 (by norm_num) (by norm_num),
    roundHalfUp_eval (2 / 10 * ((5 : ℕ) : ℚ)) 1 (by norm_num) (by norm_num),
    roundHalfUp_eval (3 / 10 * ((5 : ℕ) : ℚ)) 2 (by norm_num) (by norm_num),
    roundHalfUp_eval (4 / 10 * ((5 : ℕ) : ℚ)) 2 (by norm_num) (by norm_num)]
  rfl

set_option maxRecDepth 4000 in
lemma rescaled_ex :
    rescaledTargets exDist 10 5 = [5 / 3, 5 / 3, 10 / 3, 10 / 3] := by
  rw [rescaledTargets, provisional_ex]
  simp only [List.map_cons, List.map_nil, List.sum_cons, List.sum_nil]
  norm_num

lemma rounded_ex : roundedCounts exDist 10 5 = [2, 2, 3, 3] := by
  rw [roundedCounts, rescaled_ex]
  simp only [List.map_cons, List.map_nil]
  rw [roundHalfUp_eval (5 / 3) 2 (by norm_num) (by norm_num),
    roundHalfUp_eval (10 / 3) 3 (by norm_num) (by norm_num)]
  rfl

lemma rawComposition_ex : rawComposition exDist 10 5 = [2, 2, 3, 3] := by
  rw [rawComposition, rounded_ex]
  rw [show ([2, 2, 3, 3] : List ℕ).sum = 10 from rfl, if_pos (le_refl 10)]
  rfl

lemma quantize_ex : quantize exDist 10 5 = Except.ok [2, 2, 3, 3] := by
  rw [quantize, rawComposition_ex]
  rw [if_neg ?hInv, if_neg ?hDeg]
  case hInv =>
    rw [exDist]
    push_neg
    refine ⟨?_, by norm_num [List.sum_cons, List.sum_nil]⟩
    intro p hp
    simp only [List.mem_cons, List.not_mem_nil, or_false] at hp
    rcases hp with rfl | rfl | rfl | rfl <;> norm_num
  case hDeg =>
    intro h
    exact absurd h.1 (by decide)

lemma construct_ex :
    AdEss.new_for_distribution_num_bits 14 10 exDist 5 = Except.ok exCodec := by
  rw [AdEss.new_for_distribution_num_bits, quantize_ex]
  rfl

/-! ## Claim theorems -/

/-- C1: for every successfully constructed codec and every BitVector b of
length B = num_data_bits() with entries in {0,1}, decode (encode b) = b:
encode interprets b as an unsigned integer rank MSB-first and decode
renders the recovered rank as a length-B MSB-first BitVector zero-padded
on the left, so the round-trip is the identity. -/
theorem C1_decode_encode_id (target N R : ℕ) (dist : List ℚ) (A : AdEss)
    (hA : AdEss.new_for_distribution_num_bits target N dist R = Except.ok A)
    (b : List ℕ) (hb : b.length = A.num_data_bits)
    (hbits : ∀ x ∈ b, x ≤ 1) :
    A.encode b >>= A.decode = Except.ok b := by
  obtain ⟨hn, hlen, _⟩ := construct_wf hA
  exact encode_decode_roundtrip A hn hlen b hb hbits

theorem C1_decode_encode_id_witness :
    exCodec.encode exBits >>= exCodec.decode = Except.ok exBits :=
  C1_decode_encode_id 14 10 5 exDist exCodec construct_ex exBits
    (by decide) (by decide)

/-- C2: construction via new_for_distribution_num_bits fails with
CapacityExceeded whenever the achievable DataBitWidth
floor(log2(PermutationCount)) of the derived composition is strictly less
than the requested number of data bits. -/
theorem C2_capacity_exceeded (target N R : ℕ) (dist : List ℚ)
    (comp : List ℕ) (hq : quantize dist N R = Except.ok comp)
    (hlt : floorLog2 (permCount comp) < target) :
    AdEss.new_for_distribution_num_bits target N dist R =
      Except.error AdEssError.CapacityExceeded := by
  rw [AdEss.new_for_distribution_num_bits, hq]
  simp only [Bind.bind, Except.bind]
  rw [if_pos hlt]

theorem C2_capacity_exceeded_witness :
    AdEss.new_for_distribution_num_bits 15 10 exDist 5 =
      Except.error AdEssError.CapacityExceeded :=
  C2_capacity_exceeded 15 10 5 exDist [2, 2, 3, 3] quantize_ex (by decide)

/-- C3 counterexample: on the spec scenario (distribution
[0.1,0.2,0.3,0.4], length 10, resolution 5) the quantizer derives the
composition [2,2,3,3], whose permutation count is not 12600 and whose
achieved data bit width is not 13, refuting the claim as stated. -/
theorem C3_scenario_counterexample :
    quantize exDist 10 5 = Except.ok [2, 2, 3, 3] ∧
    permCount [2, 2, 3, 3] ≠ 12600 ∧
    AdEss.num_data_bits ⟨[1, 3, 5, 7], [2, 2, 3, 3]⟩ ≠ 13 :=
  ⟨quantize_ex, by decide, by decide⟩

/-- C3 amended: on the spec scenario the quantizer (with round-half-up
tie-breaking) produces the composition [2,2,3,3], which sums to 10; its
permutation count is 10!/(2!2!3!3!) = 25200 and num_data_bits() returns
floor(log2(25200)) = 14.  The composition [1,2,3,4] named by the spec
would indeed give 12600 and 13, but it is not the one derived. -/
theorem C3_scenario_amended :
    quantize exDist 10 5 = Except.ok [2, 2, 3, 3] ∧
    ([2, 2, 3, 3] : List ℕ).sum = 10 ∧
    permCount [2, 2, 3, 3] = 25200 ∧
    AdEss.num_data_bits ⟨[1, 3, 5, 7], [2, 2, 3, 3]⟩ = 14 ∧
    permCount [1, 2, 3, 4] = 12600 ∧
    floorLog2 12600 = 13 :=
  ⟨quantize_ex, by decide, by decide, by decide, by decide, by decide⟩

/-- C4: for every successfully constructed codec,
2^num_data_bits() ≤ permutation count of the composition, and
2^(num_data_bits()+1) exceeds it, i.e. num_data_bits is exactly the floor
base-2 logarithm of the permutation count. -/
theorem C4_capacity_bound (target N R : ℕ) (dist : List ℚ) (A : AdEss)
    (_hA : AdEss.new_for_distribution_num_bits target N dist R =
      Except.ok A) :
    2 ^ A.num_data_bits ≤ permCount A.composition ∧
    permCount A.composition < 2 ^ (A.num_data_bits + 1) := by
  have h := floorLog2_spec (permCount A.composition)
    (permCount_pos A.composition)
  simpa [AdEss.num_data_bits] using h

theorem C4_capacity_bound_witness :
    2 ^ exCodec.num_data_bits ≤ permCount exCodec.composition ∧
    permCount exCodec.composition < 2 ^ (exCodec.num_data_bits + 1) :=
  C4_capacity_bound 14 10 5 exDist exCodec construct_ex

/-- C5: every AmplitudeSequence returned by encode has length
sequence_length N, all its elements belong to the configured alphabet, and
its per-symbol occurrence counts equal the codec's fixed composition
exactly, whatever bit pattern is encoded. -/
theorem C5_composition_conservation (target N R : ℕ) (dist : List ℚ)
    (A : AdEss) (b s : List ℕ)
    (hA : AdEss.new_for_distribution_num_bits target N dist R = Except.ok A)
    (hb : b.length = A.num_data_bits) (hbits : ∀ x ∈ b, x ≤ 1)
    (hs : A.encode b = Except.ok s) :
    s.length = N ∧ (∀ x ∈ s, x ∈ A.alphabet) ∧
    A.alphabet.map (fun a => s.count a) = A.composition := by
  obtain ⟨hn, hlen, hsum⟩ := construct_wf hA
  obtain ⟨he, h1, h2, h3⟩ := encode_spec A hn hlen b hb hbits
  have hse : s = encodedSeq A b := by
    rw [hs] at he
    exact Except.ok.inj he
  subst hse
  exact ⟨by rw [h1, hsum], h2, h3⟩

theorem C5_composition_conservation_witness :
    exSeq.length = 10 ∧ (∀ x ∈ exSeq, x ∈ exCodec.alphabet) ∧
    exCodec.alphabet.map (fun a => exSeq.count a) = exCodec.composition :=
  C5_composition_conservation 14 10 5 exDist exCodec exBits exSeq
    construct_ex (by decide) (by decide) (by rfl)

/-- C6: decode fails with InvalidComposition on every input sequence of
the right length whose per-symbol counts differ from the codec's fixed
composition, producing no result (the call fails entirely). -/
theorem C6_invalid_composition (A : AdEss) (s : List ℕ)
    (hlen : s.length = A.sequence_length)
    (hc : A.alphabet.map (fun a => s.count a) ≠ A.composition) :
    A.decode s = Except.error AdEssError.InvalidComposition := by
  rw [AdEss.decode, if_neg (by rw [hlen]; exact fun hh => hh rfl),
    if_pos hc]

theorem C6_invalid_composition_witness :
    exCodec.decode [1, 1, 1, 1, 1, 1, 1, 1, 1, 1] =
      Except.error AdEssError.InvalidComposition :=
  C6_invalid_composition exCodec [1, 1, 1, 1, 1, 1, 1, 1, 1, 1]
    (by decide) (by decide)

/-- C7: multi_encode equals the elementwise map of encode over the rows in
the same order, and multi_decode equals the elementwise map of decode; the
result at each index depends only on the row at that index. -/
theorem C7_batch_equivalence (A : AdEss) (rows cols : List (List ℕ)) :
    A.multi_encode rows = rows.map A.encode ∧
    A.multi_decode cols = cols.map A.decode ∧
    (∀ i : ℕ, (A.multi_encode rows)[i]? = rows[i]?.map A.encode) ∧
    (∀ i : ℕ, (A.multi_decode cols)[i]? = cols[i]?.map A.decode) := by
  refine ⟨rfl, rfl, fun i => ?_, fun i => ?_⟩
  · rw [AdEss.multi_encode, List.getElem?_map]
  · rw [AdEss.multi_decode, List.getElem?_map]

/-- C8: average_energy() returns exactly the composition-weighted mean
Σ (count_i / N) × energy(symbol_i) with energy the squared amplitude, and
the realized mean per-symbol energy of any encoded sequence equals it — it
does not depend on which bit pattern was encoded, since the composition is
fixed. -/
theorem C8_average_energy (target N R : ℕ) (dist : List ℚ) (A : AdEss)
    (b s : List ℕ)
    (hA : AdEss.new_for_distribution_num_bits target N dist R = Except.ok A)
    (hb : b.length = A.num_data_bits) (hbits : ∀ x ∈ b, x ≤ 1)
    (hs : A.encode b = Except.ok s) :
    A.average_energy =
      ((List.range A.alphabet.length).map
        (fun i => (((A.composition.getD i 0 : ℕ) : ℚ) / (N : ℚ))
          * ((A.alphabet.getD i 0 : ℕ) : ℚ) ^ 2)).sum ∧
    (s.map (fun a : ℕ => ((a : ℚ)) ^ 2)).sum / (N : ℚ) = A.average_energy := by
  obtain ⟨hn, hlen, hsum⟩ := construct_wf hA
  have hseq : A.sequence_length = N := by
    simp only [AdEss.sequence_length]
    exact hsum
  constructor
  · rw [AdEss.average_energy, hseq]
    rw [show ((List.range A.alphabet.length).map
        (fun i => (((A.composition.getD i 0 : ℕ) : ℚ) / (N : ℚ))
          * ((A.alphabet.getD i 0 : ℕ) : ℚ) ^ 2)) =
      ((List.range A.alphabet.length).map
        (fun i => (((A.composition.getD i 0 : ℕ) : ℚ)
          * ((A.alphabet.getD i 0 : ℕ) : ℚ) ^ 2))).map
        (fun x => x / (N : ℚ)) from ?_]
    · rw [sum_map_div]
    · rw [List.map_map]
      apply List.map_congr_left
      intro i _
      simp only [Function.comp_apply]
      rw [div_mul_eq_mul_div]
  · have hse : s = encodedSeq A b := by
      have he := (encode_spec A hn hlen b hb hbits).1
      rw [hs] at he
      exact Except.ok.inj he
    subst hse
    have hr : bitsToNat b < permCount A.composition := by
      have h1 := bitsToNat_lt b hbits
      rw [hb] at h1
      have h2 : 2 ^ A.num_data_bits ≤ permCount A.composition :=
        (floorLog2_spec _ (permCount_pos _)).1
      omega
    obtain ⟨g1, g2, g3⟩ :=
      unrankAux_good A.composition.sum A.composition (bitsToNat b) rfl hr
    rw [encodedSeq, List.map_map]
    rw [sum_map_eq_counts ((fun a : ℕ => (a : ℚ) ^ 2)
        ∘ (fun i => A.alphabet.getD i 0))
      (unrank (bitsToNat b) A.composition) A.composition (fun j => g3 j)]
    rw [AdEss.average_energy, hseq]
    congr 1
    rw [← hlen]
    apply congrArg
    apply List.map_congr_left
    intro j _
    simp only [Function.comp_apply]

theorem C8_average_energy_witness :
    exCodec.average_energy =
      ((List.range exCodec.alphabet.length).map
        (fun i => (((exCodec.composition.getD i 0 : ℕ) : ℚ) / ((10 : ℕ) : ℚ))
          * ((exCodec.alphabet.getD i 0 : ℕ) : ℚ) ^ 2)).sum ∧
    (exSeq.map (fun a : ℕ => ((a : ℚ)) ^ 2)).sum / ((10 : ℕ) : ℚ) =
      exCodec.average_energy :=
  C8_average_energy 14 10 5 exDist exCodec exBits exSeq construct_ex
    (by decide) (by decide) (by rfl)

/-- C9: amplitude_distribution() returns composition[i] / sequence_length
for each symbol, and its values sum to 1. -/
theorem C9_amplitude_distribution (target N R : ℕ) (dist : List ℚ)
    (A : AdEss)
    (hA : AdEss.new_for_distribution_num_bits target N dist R = Except.ok A)
    (hN : 0 < N) :
    A.amplitude_distribution =
      A.composition.map (fun k : ℕ => (k : ℚ) / (N : ℚ)) ∧
    A.amplitude_distribution.sum = 1 := by
  obtain ⟨_, _, hsum⟩ := construct_wf hA
  have hseq : A.sequence_length = N := by
    simp only [AdEss.sequence_length]
    exact hsum
  constructor
  · rw [AdEss.amplitude_distribution, hseq]
  · rw [AdEss.amplitude_distribution, hseq]
    rw [show A.composition.map (fun k : ℕ => (k : ℚ) / (N : ℚ)) =
      (A.composition.map (fun k : ℕ => (k : ℚ))).map
        (fun x => x / (N : ℚ)) from by rw [List.map_map]; rfl]
    rw [sum_map_div, sum_map_cast, hsum]
    exact div_self (Nat.cast_ne_zero.mpr (by omega))

theorem C9_amplitude_distribution_witness :
    exCodec.amplitude_distribution =
      exCodec.composition.map (fun k : ℕ => (k : ℚ) / ((10 : ℕ) : ℚ)) ∧
    exCodec.amplitude_distribution.sum = 1 :=
  C9_amplitude_distribution 14 10 5 exDist exCodec construct_ex (by decide)

/-- C10 counterexample: with the shipped example parameters — target 15
data bits, sequence length 10, distribution [0.1,0.2,0.3,0.4], resolution
factor 5 — construction does not succeed: it fails with CapacityExceeded,
because the derived composition [2,2,3,3] only supports 14 data bits. -/
theorem C10_example_counterexample :
    AdEss.new_for_distribution_num_bits 15 10 exDist 5 =
      Except.error AdEssError.CapacityExceeded := by
  rw [AdEss.new_for_distribution_num_bits, quantize_ex]
  rfl

/-- C10 amended: with the achievable target of 14 data bits the same
parameters construct a codec (alphabet [1,3,5,7], composition [2,2,3,3]);
its encode accepts 14-bit vectors and decode(encode(b)) = b for every
14-bit vector b with entries in {0,1}. -/
theorem C10_example_amended (b : List ℕ) (hb : b.length = 14)
    (hbits : ∀ x ∈ b, x ≤ 1) :
    AdEss.new_for_distribution_num_bits 14 10 exDist 5 = Except.ok exCodec ∧
    exCodec.num_data_bits = 14 ∧
    exCodec.encode b >>= exCodec.decode = Except.ok b := by
  refine ⟨construct_ex, by decide, ?_⟩
  obtain ⟨hn, hlen, _⟩ := construct_wf construct_ex
  exact encode_decode_roundtrip exCodec hn hlen b
    (hb.trans (by decide : (14 : ℕ) = exCodec.num_data_bits)) hbits

theorem C10_example_amended_witness :
    AdEss.new_for_distribution_num_bits 14 10 exDist 5 = Except.ok exCodec ∧
    exCodec.num_data_bits = 14 ∧
    exCodec.encode exBits >>= exCodec.decode = Except.ok exBits :=
  C10_example_amended exBits (by decide) (by decide)
